import Mathlib

/-!
Verification of the Kira AI real-time pipeline against its specification.

The definitions below are shallow embeddings of the Python source:
  * `ai_core.py` (`generate_and_process_stream`, `_handle_tag`, `_speak_sentence`)
  * `src/audio/lip_sync.py` (`split_text_for_streaming`)
  * `src/audio/text_filter.py` (`TextFilter.check_safety`)
  * `src/brain/persona_enforcer.py` (`PersonaEnforcer.quick_fix`)
  * `src/brain/ai_state.py` (`AIState.update`, `AIState.change_topic`)
  * `src/brain/director.py` (`Director.decide_action`)

Strings are modelled as `List Char`; Python regular-expression searches are
modelled by explicit scanning functions with the same leftmost-match,
lazy-group semantics as the patterns in the source.
-/

namespace Kira

/-! ### Character helpers (Python `str.strip`, whitespace) -/

/-- Whitespace as recognised by Python `str.strip` (the characters that occur
in this code base: ASCII whitespace and the ideographic space). -/
def isPyWs (c : Char) : Bool :=
  c == ' ' || c == '\t' || c == '\n' || c == '\r' || c == '\x0b' || c == '\x0c' ||
    c == '　'

/-- Python `str.strip`: drop leading and trailing whitespace. -/
def pyStrip (l : List Char) : List Char :=
  ((l.dropWhile isPyWs).reverse.dropWhile isPyWs).reverse

/-- Drop a trailing run of whitespace only (used for the `\s*` that precedes
`/>` in the self-closing tag pattern). -/
def dropTrailingWs (l : List Char) : List Char :=
  (l.reverse.dropWhile isPyWs).reverse

/-! ### The stream tag grammar of `generate_and_process_stream`

The source keeps a text `buffer`, a `current_tag` slot and a `speak_buffer`,
and scans with three compiled patterns:

  * `tag_pattern      = <(speak|thought|wait|tool)(.*?)>`
  * `end_tag_pattern  = </(speak|thought|tool)>`
  * `self_closing_pattern = <(wait|tool)(.*?)\s*/>`   (matched at the start of
    the tag match, 're.match')

`.` does not match a newline (no DOTALL flag in the source), which the
scanning functions below reproduce. -/

inductive TagName
  | speak
  | thought
  | wait
  | tool
deriving DecidableEq

def tagLit : TagName → List Char
  | TagName.speak => ['s', 'p', 'e', 'a', 'k']
  | TagName.thought => ['t', 'h', 'o', 'u', 'g', 'h', 't']
  | TagName.wait => ['w', 'a', 'i', 't']
  | TagName.tool => ['t', 'o', 'o', 'l']

/-- Index of the first `'>'` that is not preceded by a newline (the lazy
`(.*?)>` of `tag_pattern`; `.` cannot cross a newline). -/
def findGtNoNl : List Char → Option Nat
  | [] => none
  | c :: cs =>
    if c == '>' then some 0
    else if c == '\n' then none
    else (findGtNoNl cs).map (fun g => g + 1)

def openCands : List TagName :=
  [TagName.speak, TagName.thought, TagName.wait, TagName.tool]

/-- Try to match `<(name)(.*?)>` anchored at the head of `l` for one of the
candidate tag names; returns the name and the total match length. -/
def tryOpenCands : List TagName → List Char → Option (TagName × Nat)
  | [], _ => none
  | t :: ts, rest =>
    if (tagLit t).isPrefixOf rest then
      match findGtNoNl (rest.drop (tagLit t).length) with
      | some g => some (t, (tagLit t).length + g + 2)
      | none => tryOpenCands ts rest
    else tryOpenCands ts rest

def tryOpenAt : List Char → Option (TagName × Nat)
  | '<' :: rest => tryOpenCands openCands rest
  | _ => none

/-- `tag_pattern.search`: leftmost match of `<(speak|thought|wait|tool)(.*?)>`;
returns (start index, tag name, match length). -/
def findOpenTag : List Char → Option (Nat × TagName × Nat)
  | [] => none
  | c :: cs =>
    match tryOpenAt (c :: cs) with
    | some (t, len) => some (0, t, len)
    | none => (findOpenTag cs).map (fun r => (r.1 + 1, r.2.1, r.2.2))

def endLit : TagName → List Char
  | TagName.speak => "</speak>".toList
  | TagName.thought => "</thought>".toList
  | TagName.wait => "</wait>".toList
  | TagName.tool => "</tool>".toList

def endCands : List TagName := [TagName.speak, TagName.thought, TagName.tool]

def tryEndCands : List TagName → List Char → Option (TagName × Nat)
  | [], _ => none
  | t :: ts, l => if (endLit t).isPrefixOf l then some (t, (endLit t).length) else tryEndCands ts l

/-- `end_tag_pattern.search`: leftmost occurrence of `</speak>`, `</thought>`
or `</tool>`; returns (start index, tag name, match length). -/
def findEndTag : List Char → Option (Nat × TagName × Nat)
  | [] => none
  | c :: cs =>
    match tryEndCands endCands (c :: cs) with
    | some (t, len) => some (0, t, len)
    | none => (findEndTag cs).map (fun r => (r.1 + 1, r.2.1, r.2.2))

/-- Index of the first occurrence of the two-character sequence `/>`. -/
def findSlashGt : List Char → Option Nat
  | [] => none
  | [_] => none
  | a :: b :: rest =>
    if a == '/' && b == '>' then some 0
    else (findSlashGt (b :: rest)).map (fun k => k + 1)

def scCands : List TagName := [TagName.wait, TagName.tool]

/-- Anchored body of `self_closing_pattern` after the `<`: lazy group up to
`\s*/>`. The first `/>` is taken; the attribute group is the middle text with
its trailing whitespace removed, and the match fails if that group would have
to contain a newline (`.` cannot match it). -/
def scTryCands : List TagName → List Char → Option (TagName × List Char × Nat)
  | [], _ => none
  | t :: ts, rest =>
    if (tagLit t).isPrefixOf rest then
      match findSlashGt (rest.drop (tagLit t).length) with
      | some k =>
        let attrs := dropTrailingWs ((rest.drop (tagLit t).length).take k)
        if attrs.contains '\n' then scTryCands ts rest
        else some (t, attrs, (tagLit t).length + k + 3)
      | none => scTryCands ts rest
    else scTryCands ts rest

/-- `self_closing_pattern.match` applied at the start of the open-tag match:
returns the tag name, the attribute text and the full match length. -/
def selfClosingAt : List Char → Option (TagName × List Char × Nat)
  | '<' :: rest => scTryCands scCands rest
  | _ => none

/-! ### Events and parser state -/

/-- The action events the streaming loop produces, at the granularity of the
source: a sentence handed to `sentence_queue` (before TTS filtering), and the
three `_handle_tag` invocations. -/
inductive StreamEvent
  | speechSegment (text : List Char)
  | thought (text : List Char)
  | waitTag (attrs : List Char)
  | toolCall (attrs content : List Char)
deriving DecidableEq

structure ParseState where
  buffer : List Char
  currentTag : Option TagName
  speakBuffer : List Char
deriving DecidableEq

/-- Observable events of one `_handle_tag(tag_name, attrs, content)` call
(`thought` prints the content, `wait` sleeps by its attribute, `speak` is a
no-op, `tool` dispatches on its attributes and content). -/
def handleTagEvent (t : TagName) (attrs content : List Char) : List StreamEvent :=
  match t with
  | TagName.thought => [StreamEvent.thought content]
  | TagName.wait => [StreamEvent.waitTag attrs]
  | TagName.speak => []
  | TagName.tool => [StreamEvent.toolCall attrs content]

def majorDelims : List Char := ['。', '！', '？', '!', '?', '\n']

def extDelims : List Char := ['。', '！', '？', '!', '?', ',', '、', '…', '\n']

/-- Leftmost index of a character from `delims` (the sentence split search). -/
def findDelim (delims : List Char) : List Char → Option Nat
  | [] => none
  | c :: cs =>
    if delims.contains c then some 0
    else (findDelim delims cs).map (fun k => k + 1)

inductive StepRes
  | progress (st : ParseState) (evs : List StreamEvent)
  | stall

/-- One iteration of the `while buffer:` micro-loop of
`generate_and_process_stream` (source lines 125-223). `stall` is the `break`
that waits for more stream fragments. A `speechSegment` event is the
`speak_buffer.strip()` text the source hands to the TTS filter and queue. -/
def stepOnce (st : ParseState) : StepRes :=
  match st.currentTag with
  | none =>
    match findOpenTag st.buffer with
    | some (s, t, _len) =>
      match selfClosingAt (st.buffer.drop s) with
      | some (sct, attrs, sclen) =>
        StepRes.progress ⟨st.buffer.drop (s + sclen), none, st.speakBuffer⟩
          (handleTagEvent sct attrs [])
      | none =>
        StepRes.progress ⟨st.buffer.drop (s + _len), some t, st.speakBuffer⟩ []
    | none => StepRes.stall
  | some t =>
    match findEndTag st.buffer with
    | some (s, endT, len) =>
      if endT = t then
        if t = TagName.speak then
          let sb := st.speakBuffer ++ st.buffer.take s
          StepRes.progress ⟨st.buffer.drop (s + len), none, []⟩
            (if pyStrip sb ≠ [] then [StreamEvent.speechSegment (pyStrip sb)] else [])
        else
          StepRes.progress ⟨st.buffer.drop (s + len), none, st.speakBuffer⟩
            (handleTagEvent t [] (st.buffer.take s))
      else
        StepRes.progress ⟨st.buffer.drop (s + len), some t, st.speakBuffer⟩ []
    | none =>
      if t = TagName.speak then
        match findDelim (if 30 < st.buffer.length then extDelims else majorDelims) st.buffer with
        | some i =>
          if 5 ≤ (pyStrip (st.speakBuffer ++ st.buffer.take (i + 1))).length then
            StepRes.progress ⟨st.buffer.drop (i + 1), some t, []⟩
              [StreamEvent.speechSegment (pyStrip (st.speakBuffer ++ st.buffer.take (i + 1)))]
          else
            StepRes.progress ⟨st.buffer.drop (i + 1), some t,
              st.speakBuffer ++ st.buffer.take (i + 1)⟩ []
        | none => StepRes.stall
      else StepRes.stall

/-! Termination: every `progress` step strictly shortens the buffer. -/

theorem findGtNoNl_some {l : List Char} {g : Nat} (h : findGtNoNl l = some g) :
    g < l.length := by
  induction l generalizing g with
  | nil => simp [findGtNoNl] at h
  | cons c cs ih =>
    simp only [findGtNoNl] at h
    split at h
    · simp only [Option.some.injEq] at h
      simp only [List.length_cons]
      omega
    · split at h
      · simp at h
      · rcases Option.map_eq_some'.mp h with ⟨g', hg', rfl⟩
        have := ih hg'
        simp only [List.length_cons]
        omega

theorem tryOpenCands_some {ts : List TagName} {rest : List Char} {t : TagName} {len : Nat}
    (h : tryOpenCands ts rest = some (t, len)) : 1 ≤ len := by
  induction ts with
  | nil => simp [tryOpenCands] at h
  | cons t' ts ih =>
    simp only [tryOpenCands] at h
    split at h
    · split at h
      · simp at h; omega
      · exact ih h
    · exact ih h

theorem tryOpenAt_some {l : List Char} {t : TagName} {len : Nat}
    (h : tryOpenAt l = some (t, len)) : 1 ≤ len := by
  match l with
  | [] => simp [tryOpenAt] at h
  | c :: rest =>
    by_cases hc : c = '<'
    · subst hc; exact tryOpenCands_some h
    · simp only [tryOpenAt] at h
      split at h
      · exact tryOpenCands_some h
      · exact absurd h (by simp)

theorem findOpenTag_some {l : List Char} {r : Nat × TagName × Nat}
    (h : findOpenTag l = some r) : 1 ≤ r.2.2 := by
  induction l generalizing r with
  | nil => simp [findOpenTag] at h
  | cons c cs ih =>
    simp only [findOpenTag] at h
    split at h
    · rename_i t len heq
      simp only [Option.some.injEq] at h
      subst h
      exact tryOpenAt_some heq
    · rcases Option.map_eq_some'.mp h with ⟨r', hr, rfl⟩
      have h2 := ih hr
      exact h2

theorem tryEndCands_some {ts : List TagName} {l : List Char} {t : TagName} {len : Nat}
    (h : tryEndCands ts l = some (t, len)) : 1 ≤ len := by
  induction ts with
  | nil => simp [tryEndCands] at h
  | cons t' ts ih =>
    simp only [tryEndCands] at h
    split at h
    · simp at h
      obtain ⟨h1, h2⟩ := h
      subst h2
      cases t' <;> simp [endLit]
    · exact ih h

theorem findEndTag_some {l : List Char} {r : Nat × TagName × Nat}
    (h : findEndTag l = some r) : 1 ≤ r.2.2 := by
  induction l generalizing r with
  | nil => simp [findEndTag] at h
  | cons c cs ih =>
    simp only [findEndTag] at h
    split at h
    · rename_i t len heq
      simp only [Option.some.injEq] at h
      subst h
      exact tryEndCands_some heq
    · rcases Option.map_eq_some'.mp h with ⟨r', hr, rfl⟩
      have h2 := ih hr
      exact h2

theorem scTryCands_some {ts : List TagName} {rest : List Char} {t : TagName}
    {attrs : List Char} {len : Nat}
    (h : scTryCands ts rest = some (t, attrs, len)) : 1 ≤ len := by
  induction ts with
  | nil => simp [scTryCands] at h
  | cons t' ts ih =>
    simp only [scTryCands] at h
    split at h
    · split at h
      · split at h
        · exact ih h
        · simp at h; omega
      · exact ih h
    · exact ih h

theorem selfClosingAt_some {l : List Char} {t : TagName} {attrs : List Char} {len : Nat}
    (h : selfClosingAt l = some (t, attrs, len)) : 1 ≤ len := by
  match l with
  | [] => simp [selfClosingAt] at h
  | c :: rest =>
    simp only [selfClosingAt] at h
    split at h
    · exact scTryCands_some h
    · exact absurd h (by simp)

theorem stepOnce_progress_lt {st st' : ParseState} {evs : List StreamEvent}
    (hne : st.buffer ≠ []) (h : stepOnce st = StepRes.progress st' evs) :
    st'.buffer.length < st.buffer.length := by
  have hpos : 0 < st.buffer.length := List.length_pos.mpr hne
  unfold stepOnce at h
  split at h
  · -- no current tag
    split at h
    · rename_i s t len hopen
      have hlen : 1 ≤ len := findOpenTag_some hopen
      split at h
      · rename_i sct attrs sclen hsc
        have hsclen := selfClosingAt_some hsc
        cases h
        simp only [List.length_drop]
        omega
      · cases h
        simp only [List.length_drop]
        omega
    · cases h
  · -- inside a tag
    rename_i t
    split at h
    · rename_i s endT len hend
      have hlen : 1 ≤ len := findEndTag_some hend
      split at h
      · split at h
        · cases h
          simp only [List.length_drop]
          omega
        · cases h
          simp only [List.length_drop]
          omega
      · cases h
        simp only [List.length_drop]
        omega
    · split at h
      · split at h
        · rename_i i hdelim
          split at h
          · cases h
            simp only [List.length_drop]
            omega
          · cases h
            simp only [List.length_drop]
            omega
        · cases h
      · cases h

/-- Fuel-indexed version of the inner `while buffer:` loop. Every `progress`
step strictly shortens the buffer (`stepOnce_progress_lt`), so any fuel
larger than the buffer length gives the loop's true result; this is proved
below (`runBufferF_fuel_irrel`), so the fuel is a purely technical device. -/
def runBufferF : Nat → ParseState → ParseState × List StreamEvent
  | 0, st => (st, [])
  | fuel + 1, st =>
    if st.buffer = [] then (st, [])
    else
      match stepOnce st with
      | StepRes.progress st' evs =>
        let r := runBufferF fuel st'
        (r.1, evs ++ r.2)
      | StepRes.stall => (st, [])

theorem runBufferF_fuel_irrel :
    ∀ n (st : ParseState) (fuel fuel' : Nat), st.buffer.length ≤ n →
      st.buffer.length < fuel → st.buffer.length < fuel' →
      runBufferF fuel st = runBufferF fuel' st := by
  intro n
  induction n with
  | zero =>
    intro st fuel fuel' hn hf hf'
    match fuel, fuel' with
    | f + 1, f' + 1 =>
      have hb : st.buffer = [] := List.length_eq_zero.mp (Nat.le_zero.mp hn)
      simp [runBufferF, hb]
  | succ n ih =>
    intro st fuel fuel' hn hf hf'
    match fuel, fuel' with
    | f + 1, f' + 1 =>
      by_cases hb : st.buffer = []
      · simp [runBufferF, hb]
      · simp only [runBufferF, hb, if_false]
        match hstep : stepOnce st with
        | StepRes.progress st' evs =>
          have hlt := stepOnce_progress_lt hb hstep
          have := ih st' f f' (by omega) (by omega) (by omega)
          simp [this]
        | StepRes.stall => rfl

/-- The inner `while buffer:` loop: run `stepOnce` until the buffer empties or
no further progress is possible. -/
def runBuffer (st : ParseState) : ParseState × List StreamEvent :=
  runBufferF (st.buffer.length + 1) st

/-- Append one stream fragment to the buffer and process it. -/
def feedFragment (st : ParseState) (frag : List Char) : ParseState × List StreamEvent :=
  runBuffer ⟨st.buffer ++ frag, st.currentTag, st.speakBuffer⟩

def feedAll : ParseState → List (List Char) → ParseState × List StreamEvent
  | st, [] => (st, [])
  | st, f :: fs =>
    let r := feedFragment st f
    let r' := feedAll r.1 fs
    (r'.1, r.2 ++ r'.2)

def initParseState : ParseState := ⟨[], none, []⟩

/-- Full run of `generate_and_process_stream`'s tag loop on a fragment list,
including the final flush of a non-empty `speak_buffer` (source lines
226-234). -/
def parseFragments (frags : List (List Char)) : List StreamEvent :=
  let r := feedAll initParseState frags
  r.2 ++
    (if pyStrip r.1.speakBuffer ≠ [] then
      [StreamEvent.speechSegment (pyStrip r.1.speakBuffer)]
    else [])

/-- Split a string into one-character fragments. -/
def charFrags (l : List Char) : List (List Char) := l.map (fun c => [c])

/-! ### Claims C1 and C2: event sequences and fragmentation -/

/-- The literal test string of the specification (section 8). -/
def c1Input : List Char := ("<speak>Hi there. How are you?</speak>").toList

/-- Claim C1: the spec asserts that feeding the whole literal string
`<speak>Hi there. How are you?</speak>` as one fragment yields two
`SpeechSegment` events, `"Hi there."` then `"How are you?"`. This is false on
the code: with the closing tag already in the buffer, the whole content is
flushed as one segment (and `.` is not a sentence delimiter of the split
pattern), so exactly one event is emitted. -/
theorem c1_counterexample :
    parseFragments [c1Input] ≠
      [StreamEvent.speechSegment (("Hi there.").toList),
        StreamEvent.speechSegment (("How are you?").toList)] := by
  decide

/-- Claim C1, amended: fed the whole literal string in one fragment, the
stream loop emits exactly one `SpeechSegment` event carrying the entire text
`"Hi there. How are you?"`. -/
theorem c1_amended :
    parseFragments [c1Input] =
      [StreamEvent.speechSegment (("Hi there. How are you?").toList)] := by
  decide

def c2Input : List Char := ("<speak>Hello! World!</speak>").toList

/-- Claim C2: the spec asserts fragmentation invariance — any partition of the
input into fragments yields the same event sequence as feeding it whole. This
is false: `<speak>Hello! World!</speak>` fed whole yields the single segment
`"Hello! World!"`, while fed one character at a time it yields `"Hello!"` then
`"World!"` (sentence extraction only happens while the closing tag has not
arrived). -/
theorem c2_counterexample :
    (charFrags c2Input).flatten = c2Input ∧
      parseFragments (charFrags c2Input) ≠ parseFragments [c2Input] := by
  constructor
  · decide
  · decide

/-- Claim C2, amended: fragmentation invariance does not hold in general; it
does hold for the specification's own example string, where feeding the whole
string and feeding it one character at a time both produce the single segment
`"Hi there. How are you?"`. -/
theorem c2_amended :
    parseFragments (charFrags c1Input) = parseFragments [c1Input] := by
  decide

/-! ### Claim C6: mismatched closing tags -/

/-- Claim C6: the spec asserts that on a mismatched closing tag the open tag
is forcibly closed (the parser returns to the no-tag-open state). This is
false: the source (ai_core.py lines 183-185) merely advances the buffer past
the mismatched closer and `current_tag` keeps its value, as this concrete
step shows (`currentTag` stays `some thought`, not `none`). -/
theorem c6_counterexample :
    stepOnce ⟨("</speak>x").toList, some TagName.thought, []⟩ =
      StepRes.progress ⟨("x").toList, some TagName.thought, []⟩ [] ∧
      some TagName.thought ≠ (none : Option TagName) := by
  constructor
  · rfl
  · decide

/-- Claim C6, amended: on a closing tag whose name differs from the currently
open tag, the parser discards the buffer up to and including that closer,
emits nothing, and remains inside the open tag. -/
theorem c6_amended (st : ParseState) (t : TagName) (s : Nat) (endT : TagName) (len : Nat)
    (hcur : st.currentTag = some t)
    (hfind : findEndTag st.buffer = some (s, endT, len))
    (hne : endT ≠ t) :
    stepOnce st = StepRes.progress ⟨st.buffer.drop (s + len), some t, st.speakBuffer⟩ [] := by
  unfold stepOnce
  rw [hcur, hfind]
  simp [hne]

/-- Witness for the amended Claim C6 at a concrete state. -/
theorem c6_amended_witness :
    stepOnce ⟨("</speak>x").toList, some TagName.thought, []⟩ =
      StepRes.progress ⟨(("</speak>x").toList).drop 8, some TagName.thought, []⟩ [] :=
  c6_amended ⟨("</speak>x").toList, some TagName.thought, []⟩ TagName.thought 0
    TagName.speak 8 rfl (by decide) (by decide)

/-! ### Claim C3: the interruption flag across a turn

`generate_and_process_stream` (the turn body used both by the reactive path
`VTubeBot.process_and_respond` and by the autonomous `conversation_loop`)
never calls `interruption_event.clear()`: the only `.clear()` in the code
base is the first statement of `AI_Core._speak_sentence`. The trace below
records, in program order, the operations the main turn coroutine performs on
the speech pipeline and the interruption flag. -/

inductive TurnAct
  | clearFlag
  | checkFlag
  | enqueueSentence
  | sleepTag
  | toolExec
deriving DecidableEq

/-- Main-coroutine pipeline actions caused by each parsed event: a speech
segment is put on `sentence_queue`; a `wait` tag sleeps inline; a `tool` tag
dispatches a tool; a `thought` only prints. -/
def eventActs : StreamEvent → List TurnAct
  | StreamEvent.speechSegment _ => [TurnAct.enqueueSentence]
  | StreamEvent.thought _ => []
  | StreamEvent.waitTag _ => [TurnAct.sleepTag]
  | StreamEvent.toolCall _ _ => [TurnAct.toolExec]

/-- Pipeline/flag action trace of one streaming turn over the given LLM
stream fragments. -/
def streamTurnTrace (frags : List (List Char)) : List TurnAct :=
  (parseFragments frags).flatMap eventActs

/-- Action trace of `AI_Core._speak_sentence` (source lines 296-318): it
clears the interruption flag first, then the generator polls the flag before
queueing each audio chunk. -/
def speakSentenceTrace : List TurnAct :=
  [TurnAct.clearFlag, TurnAct.checkFlag]

/-- Scans a trace: `true` iff no sentence is handed to the pipeline before
the interruption flag has been cleared. -/
def clearsBeforeEnqueue : List TurnAct → Bool
  | [] => true
  | TurnAct.enqueueSentence :: _ => false
  | TurnAct.clearFlag :: _ => true
  | _ :: rest => clearsBeforeEnqueue rest

/-- Claim C3: the spec asserts the interruption flag is cleared at the start
of every turn, before any sentence is handed to the speech pipeline. False on
the code: a streaming turn (used by both the reactive and the autonomous
path) hands sentences to the pipeline without any preceding clear of the
flag. -/
theorem c3_counterexample :
    TurnAct.enqueueSentence ∈ streamTurnTrace [("<speak>Hello!</speak>").toList] ∧
      clearsBeforeEnqueue (streamTurnTrace [("<speak>Hello!</speak>").toList]) = false := by
  constructor
  · decide
  · decide

theorem clearFlag_not_mem_eventActs (e : StreamEvent) : TurnAct.clearFlag ∉ eventActs e := by
  cases e <;> simp [eventActs]

/-- Claim C3, amended: the streaming turn path never clears the interruption
flag at all (neither for reactive nor for autonomous turns); the flag is
cleared only as the first action of the non-streaming direct speech path
`_speak_sentence`. -/
theorem c3_amended :
    (∀ frags, (streamTurnTrace frags).count TurnAct.clearFlag = 0) ∧
      speakSentenceTrace.head? = some TurnAct.clearFlag := by
  constructor
  · intro frags
    rw [List.count_eq_zero]
    intro hmem
    rcases List.mem_flatMap.mp hmem with ⟨e, _, hmem2⟩
    exact clearFlag_not_mem_eventActs e hmem2
  · rfl

/-! ### Claim C7: `_handle_tag` on missing attributes

`AI_Core._handle_tag` (source lines 246-283) parses `time="(\d+)"` on a
`wait` tag and `name="([^"]+)"` / `args="([^"]+)"` on a `tool` tag with
`re.search`, executes a registered tool or records a result string. -/

def digitsToNat (l : List Char) : Nat :=
  l.foldl (fun acc c => acc * 10 + (c.toNat - ('0').toNat)) 0

/-- Anchored match of `time="(\d+)"`: the literal key, a maximal nonempty
digit run, then a closing quote. -/
def tryTimeAt (l : List Char) : Option Nat :=
  if (("time=\"").toList).isPrefixOf l then
    match (l.drop 6).takeWhile (fun c => c.isDigit), (l.drop 6).dropWhile (fun c => c.isDigit) with
    | [], _ => none
    | ds, '"' :: _ => some (digitsToNat ds)
    | _, _ => none
  else none

/-- `re.search(r'time="(\d+)"', attrs)`: leftmost anchored match. -/
def findTimeAttr : List Char → Option Nat
  | [] => none
  | c :: cs =>
    match tryTimeAt (c :: cs) with
    | some n => some n
    | none => findTimeAttr cs

/-- Anchored match of `key"([^"]+)"`: the literal key (ending in `="`), a
maximal nonempty run of non-quote characters, then the closing quote. -/
def tryQuotedAt (key : List Char) (l : List Char) : Option (List Char) :=
  if key.isPrefixOf l then
    match (l.drop key.length).takeWhile (fun c => c != '"'),
        (l.drop key.length).dropWhile (fun c => c != '"') with
    | [], _ => none
    | v, '"' :: _ => some v
    | _, _ => none
  else none

/-- `re.search` for `name="([^"]+)"` / `args="([^"]+)"`. -/
def findQuotedAttr (key : List Char) : List Char → Option (List Char)
  | [] => none
  | c :: cs =>
    match tryQuotedAt key (c :: cs) with
    | some v => some v
    | none => findQuotedAttr key cs

def nameKey : List Char := ("name=\"").toList

def argsKey : List Char := ("args=\"").toList

inductive ToolOutcome
  | ok (result : List Char)
  | err (msg : List Char)

/-- Observable effect of one `_handle_tag` call: the seconds slept by a
`wait` tag, and the updated `self.tool_results` accumulator. -/
structure TagEffect where
  waited : Option Nat
  toolResults : List (List Char)
deriving DecidableEq

/-- `AI_Core._handle_tag`, with the registry as the list of registered tool
names and the external tool execution modelled by `exec` (its result or the
exception message). -/
def handleTag (t : TagName) (attrs content : List Char) (registry : List (List Char))
    (exec : List Char → List Char → ToolOutcome) (results : List (List Char)) : TagEffect :=
  match t with
  | TagName.thought => ⟨none, results⟩
  | TagName.speak => ⟨none, results⟩
  | TagName.wait =>
    match findTimeAttr attrs with
    | some n => ⟨some n, results⟩
    | none => ⟨none, results⟩
  | TagName.tool =>
    match findQuotedAttr nameKey attrs with
    | none => ⟨none, results⟩
    | some nm =>
      let argsStr :=
        match findQuotedAttr argsKey attrs with
        | some a => a
        | none => pyStrip content
      if registry.contains nm then
        match exec nm argsStr with
        | ToolOutcome.ok r =>
          ⟨none, results ++ [("Tool '").toList ++ nm ++ ("' result: ").toList ++ r]⟩
        | ToolOutcome.err e =>
          ⟨none, results ++ [("Error executing tool ").toList ++ nm ++ (": ").toList ++ e]⟩
      else ⟨none, results ++ [("Tool '").toList ++ nm ++ ("' not found.").toList]⟩

/-- Claim C7: the spec asserts that a `tool` tag with no recognised name
attribute records a "tool not found" result. False on the code: when
`name="..."` does not parse, `tool_name` is `None` and the whole
`if tool_name:` block — including the not-found branch — is skipped, so the
accumulated results stay empty at this concrete input. -/
theorem c7_counterexample :
    (handleTag TagName.tool [] [] [] (fun _ _ => ToolOutcome.ok []) []).toolResults = [] ∧
      ¬ ∃ msg,
        (handleTag TagName.tool [] [] [] (fun _ _ => ToolOutcome.ok []) []).toolResults =
          [msg] := by
  refine ⟨rfl, ?_⟩
  rintro ⟨msg, hmsg⟩
  simp [handleTag, findQuotedAttr] at hmsg

/-- Claim C7, amended: a `wait` tag whose attributes contain no recognised
time attribute is a no-op (nothing slept, results untouched), and a `tool`
tag whose attributes contain no recognised name attribute is likewise a
complete no-op — the "tool not found" result is recorded only when a name is
present but not registered. -/
theorem c7_amended :
    (∀ attrs content registry exec results, findTimeAttr attrs = none →
      handleTag TagName.wait attrs content registry exec results = ⟨none, results⟩) ∧
    (∀ attrs content registry exec results, findQuotedAttr nameKey attrs = none →
      handleTag TagName.tool attrs content registry exec results = ⟨none, results⟩) := by
  constructor
  · intro attrs content registry exec results h
    simp [handleTag, h]
  · intro attrs content registry exec results h
    simp [handleTag, h]

/-- Witness for the amended Claim C7 at concrete attribute text. -/
theorem c7_amended_witness :
    handleTag TagName.wait ((" foo").toList) [] [] (fun _ _ => ToolOutcome.ok []) [] =
        ⟨none, []⟩ ∧
      handleTag TagName.tool ((" foo").toList) [] [] (fun _ _ => ToolOutcome.ok []) [] =
        ⟨none, []⟩ :=
  ⟨c7_amended.1 ((" foo").toList) [] [] (fun _ _ => ToolOutcome.ok []) [] (by decide),
    c7_amended.2 ((" foo").toList) [] [] (fun _ _ => ToolOutcome.ok []) [] (by decide)⟩

/-! ### Claim C9: `TextFilter.check_safety` on the empty string

`src/audio/text_filter.py` lines 73-91: an empty text short-circuits to
`(True, "")`; otherwise the NSFW substring patterns are consulted first, then
the four meta/out-of-character patterns, each with its fixed reason string. -/

/-- Case-insensitive (ASCII, `re.I`) prefix test. -/
def iPrefixOf : List Char → List Char → Bool
  | [], _ => true
  | _ :: _, [] => false
  | a :: as, b :: bs => a.toLower == b.toLower && iPrefixOf as bs

/-- Case-insensitive substring search (`.*pat.*` with `re.search`). -/
def iFindSub (pat : List Char) : List Char → Bool
  | [] => iPrefixOf pat []
  | c :: cs => iPrefixOf pat (c :: cs) || iFindSub pat cs

/-- Occurrence search `.*?(alt).*` anchored at the string start where `.`
cannot match a newline: some alternative occurs with only non-newline
characters before it. -/
def existsThenNoNl (pats : List (List Char)) : List Char → Bool
  | [] => pats.any (fun p => iPrefixOf p [])
  | c :: cs => pats.any (fun p => iPrefixOf p (c :: cs)) || (!(c == '\n') && existsThenNoNl pats cs)

def nsfwWords : List (List Char) :=
  [("死ね").toList, ("殺す").toList, ("殺したい").toList, ("馬鹿").toList, ("アホ").toList,
    ("クズ").toList, ("ゴミ").toList, ("変態").toList, ("エッチ").toList, ("セックス").toList,
    ("やりたい").toList, ("オナニー").toList]

def metaOpeners1 : List (List Char) :=
  [("今日は").toList, ("さて、今日は").toList, ("話題を変えて").toList, ("次は").toList,
    ("それでは").toList, ("ところで").toList, ("話は変わるけど").toList]

def metaClosers1 : List (List Char) :=
  [("話そう").toList, ("話したい").toList, ("紹介しよう").toList, ("お話しします").toList,
    ("考えてみます").toList, ("についてです").toList, ("語ろう").toList]

def metaWords2 : List (List Char) :=
  [("話題を変えて").toList, ("別の話を").toList, ("トレンドを調べて").toList, ("この話題").toList,
    ("話し合おう").toList, ("提案").toList, ("魅力がある").toList, ("生き物がある").toList]

def metaClosers3 : List (List Char) :=
  [("話そう").toList, ("話すね").toList, ("調べてみる").toList, ("どうかな").toList,
    ("紹介する").toList, ("語ろう").toList]

def metaWords4 : List (List Char) :=
  [("いいじゃない").toList, ("いい話題").toList, ("面白い記事").toList, ("エーアイ").toList,
    ("AIだから").toList, ("私はAI").toList, ("あるわよね").toList, ("さっきの話から").toList,
    ("広げて").toList, ("連想").toList]

/-- Hiragana / katakana / kanji character class `[ぁ-んァ-ン一-龠]`. -/
def inKanaKanji (c : Char) : Bool :=
  (0x3041 ≤ c.toNat && c.toNat ≤ 0x3093) || (0x30A1 ≤ c.toNat && c.toNat ≤ 0x30F3) ||
    (0x4E00 ≤ c.toNat && c.toNat ≤ 0x9FA0)

/-- The character class the source writes as `[について|に関して]` (a set of
seven characters, including the literal `|`). -/
def metaClass3 : List Char := ['に', 'つ', 'い', 'て', '|', '関', 'し']

/-- Meta pattern 1: an opener prefix, then (`、?.*`) any non-newline run, then
a closer. -/
def metaMatch1 (text : List Char) : Bool :=
  metaOpeners1.any (fun o =>
    o.isPrefixOf text && existsThenNoNl metaClosers1 (text.drop o.length))

/-- Tail of meta pattern 3 after at least one class-1 character: either one
more class-1 character, or the class-2 character followed by a closer. -/
def metaMatch3Go : List Char → Bool
  | [] => false
  | c :: cs =>
    (metaClass3.contains c && existsThenNoNl metaClosers3 cs) ||
      (inKanaKanji c && metaMatch3Go cs)

def metaMatch3 : List Char → Bool
  | [] => false
  | c :: cs => inKanaKanji c && metaMatch3Go cs

/-- The four `meta_patterns` of `TextFilter`, in source order. -/
def metaMatch (text : List Char) : Bool :=
  metaMatch1 text || existsThenNoNl metaWords2 text || metaMatch3 text ||
    existsThenNoNl metaWords4 text

def nsfwReason : List Char :=
  ("不適切な表現（暴言・卑猥な言葉など）が含まれています。より健全で明るい表現に修正してください。").toList

def metaReason : List Char :=
  ("メタ発言（「話そう」「紹介する」等の進行発言）や、話題の不自然な転換が含まれています。それらは削除し、いきなり本題（感想やエピソード）から自然に話してください。また、もし視聴者からのコメントがある場合は、それを無視して別の話題を話そうとしていないか確認し、コメントへの返信を優先してください。").toList

/-- `TextFilter.check_safety`. -/
def checkSafety (text : List Char) : Bool × List Char :=
  if text = [] then (true, [])
  else if nsfwWords.any (fun w => iFindSub w text) then (false, nsfwReason)
  else if metaMatch text then (false, metaReason)
  else (true, [])

/-- Claim C9: `check_safety` applied to the empty string returns
`(allowed := true, reason := "")` through the early `if not text:` return,
before any disallowed-content or meta pattern is consulted. -/
theorem c9_empty_allowed : checkSafety [] = (true, []) := rfl

/-! ### Claim C4: `AIState` scalar clamping

`src/brain/ai_state.py`: four scalar moods in `[0,1]`, decayed by `update`
and nudged by named events, each mutation individually clamped with
`min`/`max`. Wall-clock reads (`time.time()`) are the explicit `now`
parameter; event names stay strings, as in the source, so that unknown names
fall through every branch. -/

inductive Mood
  | energetic
  | chill
  | sassy
  | bored
  | curious
deriving DecidableEq

structure AIState where
  boredom : ℚ
  energy : ℚ
  sass : ℚ
  focus : ℚ
  mood : Mood
  currentTopic : String
  topicStartTime : ℚ
  topicsDiscussed : List String
  lastBokeTime : ℚ
  lastInteractionTime : ℚ
  lastCommentReaction : ℚ
  consecutiveMonologues : Nat
deriving DecidableEq

/-- The dataclass defaults of `AIState`; `t0` is the creation time used for
the `time.time()` default factories. -/
def initAIState (t0 : ℚ) : AIState :=
  { boredom := 0, energy := 0.7, sass := 0.3, focus := 0.5, mood := Mood.chill,
    currentTopic := "", topicStartTime := t0, topicsDiscussed := [],
    lastBokeTime := 0, lastInteractionTime := t0, lastCommentReaction := 0,
    consecutiveMonologues := 0 }

/-- `AIState._update_mood`. -/
def updateMood (s : AIState) : AIState :=
  { s with mood :=
      if 0.7 < s.boredom then Mood.bored
      else if 0.6 < s.sass then Mood.sassy
      else if 0.7 < s.energy then Mood.energetic
      else if 0.6 < s.focus then Mood.curious
      else Mood.chill }

/-- `AIState._handle_event`. -/
def handleEvent (now : ℚ) (s : AIState) (event : String) : AIState :=
  if event = "comment_received" then
    { s with energy := min 1 (s.energy + 0.15), boredom := max 0 (s.boredom - 0.2),
             lastCommentReaction := now, consecutiveMonologues := 0 }
  else if event = "spoke" then
    { s with boredom := max 0 (s.boredom - 0.05), lastInteractionTime := now }
  else if event = "boke" then
    { s with energy := min 1 (s.energy + 0.2), boredom := max 0 (s.boredom - 0.3),
             lastBokeTime := now, sass := min 1 (s.sass + 0.1) }
  else if event = "topic_change" then
    { s with focus := min 1 (s.focus + 0.3), boredom := max 0 (s.boredom - 0.15),
             topicStartTime := now }
  else if event = "got_reaction" then
    { s with energy := min 1 (s.energy + 0.1), sass := max 0 (s.sass - 0.05) }
  else if event = "monologue" then
    if 3 < s.consecutiveMonologues + 1 then
      { s with consecutiveMonologues := s.consecutiveMonologues + 1,
               boredom := min 1 (s.boredom + 0.2) }
    else { s with consecutiveMonologues := s.consecutiveMonologues + 1 }
  else s

/-- `AIState.update(elapsed_seconds, event)`; `now` is the `time.time()`
read used for the topic-duration check. -/
def stateUpdate (s : AIState) (now elapsed : ℚ) (event : Option String) : AIState :=
  let s1 := { s with
    boredom := min 1 (s.boredom + elapsed * 0.005),
    energy := max 0.2 (s.energy - elapsed * 0.002),
    focus := max 0.1 (s.focus - elapsed * 0.003) }
  let s2 :=
    if 120 < now - s1.topicStartTime then
      { s1 with boredom := min 1 (s1.boredom + 0.1), focus := max 0.1 (s1.focus - 0.1) }
    else s1
  let s3 := match event with
    | some e => handleEvent now s2 e
    | none => s2
  updateMood s3

/-- `AIState.change_topic(new_topic)`. -/
def changeTopic (s : AIState) (now : ℚ) (newTopic : String) : AIState :=
  let s1 :=
    if s.currentTopic ≠ "" ∧ s.currentTopic ≠ newTopic then
      let td := s.topicsDiscussed ++ [s.currentTopic]
      { s with topicsDiscussed := if 10 < td.length then td.drop 1 else td }
    else s
  let s2 := { s1 with currentTopic := newTopic, topicStartTime := now }
  handleEvent now s2 "topic_change"

inductive AIOp
  | update (now elapsed : ℚ) (event : Option String)
  | changeTopic (now : ℚ) (topic : String)

def applyOp (s : AIState) : AIOp → AIState
  | AIOp.update now elapsed ev => stateUpdate s now elapsed ev
  | AIOp.changeTopic now topic => changeTopic s now topic

/-- An `update` is called with a non-negative elapsed time; `change_topic`
accepts any topic. -/
def opValid : AIOp → Prop
  | AIOp.update _ elapsed _ => 0 ≤ elapsed
  | AIOp.changeTopic _ _ => True

def inBounds (s : AIState) : Prop :=
  0 ≤ s.boredom ∧ s.boredom ≤ 1 ∧ 0 ≤ s.energy ∧ s.energy ≤ 1 ∧
    0 ≤ s.sass ∧ s.sass ≤ 1 ∧ 0 ≤ s.focus ∧ s.focus ≤ 1

instance (s : AIState) : Decidable (inBounds s) := by
  unfold inBounds
  infer_instance

theorem clamp01_hi {hi x : ℚ} (h0 : 0 ≤ hi) (hx : 0 ≤ x) :
    0 ≤ min hi x ∧ min hi x ≤ hi := ⟨le_min h0 hx, min_le_left hi x⟩

theorem clamp01_lo {lo x : ℚ} (h0 : 0 ≤ lo) (h1 : lo ≤ 1) (hx : x ≤ 1) :
    0 ≤ max lo x ∧ max lo x ≤ 1 := ⟨le_trans h0 (le_max_left lo x), max_le h1 hx⟩

theorem handleEvent_inBounds (now : ℚ) (s : AIState) (e : String) (h : inBounds s) :
    inBounds (handleEvent now s e) := by
  obtain ⟨h1, h2, h3, h4, h5, h6, h7, h8⟩ := h
  unfold handleEvent
  split_ifs
  · exact ⟨le_trans (by norm_num) (le_max_left _ _), max_le (by norm_num) (by linarith),
      le_min (by norm_num) (by linarith), min_le_left _ _, h5, h6, h7, h8⟩
  · exact ⟨le_trans (by norm_num) (le_max_left _ _), max_le (by norm_num) (by linarith),
      h3, h4, h5, h6, h7, h8⟩
  · exact ⟨le_trans (by norm_num) (le_max_left _ _), max_le (by norm_num) (by linarith),
      le_min (by norm_num) (by linarith), min_le_left _ _,
      le_min (by norm_num) (by linarith), min_le_left _ _, h7, h8⟩
  · exact ⟨le_trans (by norm_num) (le_max_left _ _), max_le (by norm_num) (by linarith),
      h3, h4, h5, h6, le_min (by norm_num) (by linarith), min_le_left _ _⟩
  · exact ⟨h1, h2, le_min (by norm_num) (by linarith), min_le_left _ _,
      le_trans (by norm_num) (le_max_left _ _), max_le (by norm_num) (by linarith), h7, h8⟩
  · exact ⟨le_min (by norm_num) (by linarith), min_le_left _ _, h3, h4, h5, h6, h7, h8⟩
  · exact ⟨h1, h2, h3, h4, h5, h6, h7, h8⟩
  · exact ⟨h1, h2, h3, h4, h5, h6, h7, h8⟩

theorem updateMood_inBounds (s : AIState) (h : inBounds s) : inBounds (updateMood s) := by
  obtain ⟨h1, h2, h3, h4, h5, h6, h7, h8⟩ := h
  exact ⟨h1, h2, h3, h4, h5, h6, h7, h8⟩

theorem stateUpdate_inBounds (s : AIState) (now elapsed : ℚ) (event : Option String)
    (helapsed : 0 ≤ elapsed) (h : inBounds s) :
    inBounds (stateUpdate s now elapsed event) := by
  obtain ⟨h1, h2, h3, h4, h5, h6, h7, h8⟩ := h
  have hb : 0 ≤ elapsed * 0.005 := by positivity
  have he : 0 ≤ elapsed * 0.002 := by positivity
  have hf : 0 ≤ elapsed * 0.003 := by positivity
  have hs1 : inBounds { s with
      boredom := min 1 (s.boredom + elapsed * 0.005),
      energy := max 0.2 (s.energy - elapsed * 0.002),
      focus := max 0.1 (s.focus - elapsed * 0.003) } :=
    ⟨le_min (by norm_num) (by linarith), min_le_left _ _,
      le_trans (by norm_num) (le_max_left _ _), max_le (by norm_num) (by linarith),
      h5, h6,
      le_trans (by norm_num) (le_max_left _ _), max_le (by norm_num) (by linarith)⟩
  obtain ⟨g1, g2, g3, g4, g5, g6, g7, g8⟩ := hs1
  have hs2 : inBounds (if 120 < now - ({ s with
      boredom := min 1 (s.boredom + elapsed * 0.005),
      energy := max 0.2 (s.energy - elapsed * 0.002),
      focus := max 0.1 (s.focus - elapsed * 0.003) } : AIState).topicStartTime then
        { s with
          boredom := min 1 (min 1 (s.boredom + elapsed * 0.005) + 0.1),
          energy := max 0.2 (s.energy - elapsed * 0.002),
          focus := max 0.1 (max 0.1 (s.focus - elapsed * 0.003) - 0.1) }
      else { s with
        boredom := min 1 (s.boredom + elapsed * 0.005),
        energy := max 0.2 (s.energy - elapsed * 0.002),
        focus := max 0.1 (s.focus - elapsed * 0.003) }) := by
    split_ifs
    · exact ⟨le_min (by norm_num) (by linarith), min_le_left _ _, g3, g4, g5, g6,
        le_trans (by norm_num) (le_max_left _ _), max_le (by norm_num) (by linarith)⟩
    · exact ⟨g1, g2, g3, g4, g5, g6, g7, g8⟩
  show inBounds (stateUpdate s now elapsed event)
  unfold stateUpdate
  apply updateMood_inBounds
  cases event with
  | none => exact hs2
  | some e => exact handleEvent_inBounds now _ e hs2

theorem changeTopic_inBounds (s : AIState) (now : ℚ) (topic : String) (h : inBounds s) :
    inBounds (changeTopic s now topic) := by
  obtain ⟨h1, h2, h3, h4, h5, h6, h7, h8⟩ := h
  unfold changeTopic
  apply handleEvent_inBounds
  split_ifs <;> exact ⟨h1, h2, h3, h4, h5, h6, h7, h8⟩

theorem applyOp_inBounds (s : AIState) (op : AIOp) (h : inBounds s) (hop : opValid op) :
    inBounds (applyOp s op) := by
  match op with
  | AIOp.update now elapsed ev => exact stateUpdate_inBounds s now elapsed ev hop h
  | AIOp.changeTopic now topic => exact changeTopic_inBounds s now topic h

theorem foldOps_inBounds (ops : List AIOp) :
    ∀ s : AIState, inBounds s → (∀ op ∈ ops, opValid op) →
      inBounds (ops.foldl applyOp s) := by
  induction ops with
  | nil => intro s h _; exact h
  | cons op ops ih =>
    intro s h hops
    exact ih (applyOp s op) (applyOp_inBounds s op h (hops op (by simp)))
      (fun o ho => hops o (by simp [ho]))

theorem initAIState_inBounds (t0 : ℚ) : inBounds (initAIState t0) := by
  norm_num [initAIState, inBounds]

/-- Claim C4: the four scalars `boredom`, `energy`, `sass`, `focus` remain in
`[0,1]` after every mutation — the freshly constructed state is in bounds,
each single `update` (with non-negative elapsed time, arbitrary or absent
event name) or `change_topic` (arbitrary topic) preserves the bounds, and
hence every state reachable through any mutation sequence is in bounds. -/
theorem c4_scalars_clamped :
    (∀ t0 : ℚ, inBounds (initAIState t0)) ∧
      (∀ (s : AIState) (op : AIOp), inBounds s → opValid op → inBounds (applyOp s op)) ∧
      (∀ (t0 : ℚ) (ops : List AIOp), (∀ op ∈ ops, opValid op) →
        inBounds (ops.foldl applyOp (initAIState t0))) :=
  ⟨initAIState_inBounds, applyOp_inBounds,
    fun t0 ops hops => foldOps_inBounds ops (initAIState t0) (initAIState_inBounds t0) hops⟩

/-- Witness for Claim C4 at a concrete mutation sequence. -/
theorem c4_scalars_clamped_witness :
    inBounds (([AIOp.update 1 5 (some "boke"), AIOp.update 2 200 none,
        AIOp.changeTopic 3 "weather", AIOp.update 4 0 (some "unknown_event")]).foldl
      applyOp (initAIState 0)) :=
  c4_scalars_clamped.2.2 0 _ (by
    intro op hop
    simp only [List.mem_cons, List.not_mem_nil, or_false] at hop
    rcases hop with rfl | rfl | rfl | rfl <;> norm_num [opValid])

/-! ### Claim C8: `Director.decide_action` with pending comments and zero sass

`src/brain/director.py`. The successive outputs of `random.random()` are the
explicit stream `rolls` (consumed in source order: the comment-suppression
roll first, then `should_boke`'s roll when the 30-second cooldown has passed,
then the SASSY tease roll, then `should_change_topic`'s roll); each branch
performs at most one `random.choice`, modelled by `choice` as an index into
the pattern list. `now` is the `time.time()` read. -/

inductive ActionMode
  | react
  | monologue
  | boke
  | tease
  | wait
deriving DecidableEq

structure ActionPlan where
  mode : ActionMode
  directive : String
  temperature : ℚ
  maxTokens : Nat
  priority : Int
  commentToReact : Option String
  topicHint : Option String
deriving DecidableEq

def bokePatterns : List String :=
  ["突然全く関係ない疑問を口に出す", "さっき言ったことと矛盾することを自信満々に言う",
    "明らかに間違った豆知識を披露する", "急に哲学的なことを言い出す",
    "唐突に自分の失敗談を思い出す", "何かを思い出しかけて忘れる"]

def teasePatterns : List String :=
  ["視聴者が少ないことをいじる", "コメントの内容に突っ込む", "視聴者に無茶振りする",
    "自分の方が詳しいアピールをする（でも間違ってる）"]

def monologueSeeds : List String :=
  ["最近ハマってること", "昨日見た夢の話", "今欲しいものの話", "最近気づいたこと",
    "ふと思い出した昔の話", "今の気分", "さっき食べたもの/これから食べたいもの",
    "推しの話", "最近見たコンテンツの感想"]

/-- `random.choice(l)`, with the chosen index supplied externally. -/
def pickFrom (l : List String) (k : Nat) : String := l.getD (k % l.length) ""

/-- `AIState.get_temperature_modifier`. -/
def tempModifier (s : AIState) : ℚ :=
  s.boredom * 0.2 - s.focus * 0.1 + (1 - s.energy) * 0.1

/-- `AIState.should_boke`, with its `random.random()` outcome explicit. -/
def shouldBoke (s : AIState) (now roll : ℚ) : Bool :=
  if now - s.lastBokeTime < 30 then false
  else decide (roll < s.boredom * 0.4 + (1 - s.focus) * 0.3)

/-- `AIState.should_change_topic`, with its `random.random()` outcome
explicit. -/
def shouldChangeTopic (s : AIState) (now roll : ℚ) : Bool :=
  if 120 < now - s.topicStartTime then true
  else if s.focus < 0.3 ∧ 0.5 < s.boredom then decide (roll < 0.3)
  else false

/-- `AIState.to_prompt_hint`. -/
def toPromptHint (s : AIState) : String :=
  let hints : List String :=
    (if s.mood = Mood.bored then ["今かなり暇。何か面白いことしたい"]
      else if s.mood = Mood.sassy then ["ちょっとイジワル気分"]
      else if s.mood = Mood.energetic then ["テンション高め"]
      else if s.mood = Mood.curious then ["何かに興味津々"]
      else []) ++
    (if 2 < s.consecutiveMonologues then ["独り言が続いてる。誰かと話したい"] else []) ++
    (if 0.6 < s.boredom then ["同じ話題に飽きてきた"] else [])
  String.intercalate "、" hints

/-- `Director._plan_react`. -/
def planReact (s : AIState) : ActionPlan :=
  let dt : String × ℚ :=
    if s.mood = Mood.sassy then ("コメントに反応。ちょっとだけいじりつつ返事して。", 0.8)
    else if s.mood = Mood.bored then ("コメントに反応。ダルそうに、でも嬉しそうに。", 0.7)
    else if s.mood = Mood.energetic then ("コメントに反応！テンション高めでリアクション！", 0.8)
    else ("コメントに自然に反応して。", 0.7)
  { mode := ActionMode.react, directive := dt.1, temperature := dt.2 + tempModifier s,
    maxTokens := 100, priority := 10, commentToReact := none, topicHint := none }

/-- `Director._plan_boke`. -/
def planBoke (choice : Nat) : ActionPlan :=
  { mode := ActionMode.boke,
    directive := "[ボケモード] " ++ pickFrom bokePatterns choice ++ "。脈絡なくていい。",
    temperature := 0.95, maxTokens := 80, priority := 5, commentToReact := none,
    topicHint := none }

/-- `Director._plan_tease`. -/
def planTease (choice : Nat) : ActionPlan :=
  { mode := ActionMode.tease,
    directive := "[いじりモード] " ++ pickFrom teasePatterns choice ++ "。でも愛を持って。",
    temperature := 0.85, maxTokens := 100, priority := 3, commentToReact := none,
    topicHint := none }

/-- `Director._plan_topic_change`. -/
def planTopicChange (s : AIState) (choice : Nat) : ActionPlan :=
  let last3 := s.topicsDiscussed.drop (s.topicsDiscussed.length - 3)
  let avail := monologueSeeds.filter (fun x => !(last3.contains x))
  let avail' := if avail = [] then monologueSeeds else avail
  let seed := pickFrom avail' choice
  { mode := ActionMode.monologue,
    directive := "「" ++ seed ++ "」について急に話し始める。前の話題からの繋がりは不要。",
    temperature := 0.75 + tempModifier s, maxTokens := 150, priority := 4,
    commentToReact := none, topicHint := some seed }

/-- `Director._plan_monologue`. -/
def planMonologue (s : AIState) : ActionPlan :=
  let base : String :=
    if s.mood = Mood.bored then "何か話したいけど特に話題がない。暇を持て余してる感じで。"
    else if s.mood = Mood.energetic then "何か楽しいことを話したい！テンション高めで。"
    else if s.mood = Mood.curious then "何か気になることを深掘りする。"
    else "自然に何か話す。"
  let d1 :=
    if s.currentTopic ≠ "" then base ++ "今の話題「" ++ s.currentTopic ++ "」に関連して。"
    else base
  let hint := toPromptHint s
  let d2 := if hint ≠ "" then d1 ++ " (内心: " ++ hint ++ ")" else d1
  { mode := ActionMode.monologue, directive := d2, temperature := 0.7 + tempModifier s,
    maxTokens := 150, priority := 1, commentToReact := none, topicHint := none }

structure DirContext where
  hasComments : Bool
  idleTime : ℚ

/-- `Director.decide_action`. -/
def decideAction (s : AIState) (ctx : DirContext) (now : ℚ)
    (rolls : Nat → ℚ) (choice : Nat) : ActionPlan :=
  let iBoke : Nat := if ctx.hasComments then 1 else 0
  let iSassy : Nat := iBoke + (if now - s.lastBokeTime < 30 then 0 else 1)
  let iTopic : Nat := iSassy + (if s.mood = Mood.sassy then 1 else 0)
  if ctx.hasComments = true ∧ s.sass * 0.3 < rolls 0 then planReact s
  else if shouldBoke s now (rolls iBoke) then planBoke choice
  else if s.mood = Mood.sassy ∧ rolls iSassy < 0.4 then planTease choice
  else if ctx.idleTime < 5 then
    { mode := ActionMode.wait, directive := "", temperature := 0.7, maxTokens := 150,
      priority := -1, commentToReact := none, topicHint := none }
  else if shouldChangeTopic s now (rolls iTopic) then planTopicChange s choice
  else planMonologue s

/-- A concrete state with `sass = 0`: the dataclass defaults except for sass,
with the boke cooldown still active at time `0`. -/
def c8State : AIState := { initAIState 0 with sass := 0 }

/-- Claim C8: the spec asserts that with pending comments and `sass = 0`
every outcome of the random roll in `[0,1)` yields a REACT plan. False at the
roll outcome `0.0` (a possible value of `random.random()`): the suppression
test `random.random() > sass * 0.3` is `0 > 0`, which fails, so the comment
branch is skipped and this concrete call returns a WAIT plan instead. -/
theorem c8_counterexample :
    (0 : ℚ) ≤ 0 ∧ (0 : ℚ) < 1 ∧
      (decideAction c8State ⟨true, 0⟩ 0 (fun _ => 0) 0).mode = ActionMode.wait ∧
      (decideAction c8State ⟨true, 0⟩ 0 (fun _ => 0) 0).mode ≠ ActionMode.react := by
  have h : (decideAction c8State ⟨true, 0⟩ 0 (fun _ => 0) 0).mode = ActionMode.wait := by
    norm_num [decideAction, c8State, initAIState, shouldBoke, planReact, planBoke, planTease,
      planTopicChange, planMonologue, shouldChangeTopic]
    rfl
  exact ⟨le_refl 0, by norm_num, h, by rw [h]; decide⟩

/-- Claim C8, amended: with pending comments and `sass = 0`, every strictly
positive roll outcome (all of `(0,1)`) takes the react branch, whatever the
rest of the state, the time, or the choice stream; only the measure-zero
outcome exactly `0.0` escapes it. -/
theorem c8_amended (s : AIState) (ctx : DirContext) (now : ℚ) (rolls : Nat → ℚ)
    (choice : Nat) (hsass : s.sass = 0) (hc : ctx.hasComments = true)
    (hroll : 0 < rolls 0) :
    (decideAction s ctx now rolls choice).mode = ActionMode.react := by
  unfold decideAction
  rw [if_pos ⟨hc, by rw [hsass]; simpa using hroll⟩]
  unfold planReact
  split_ifs <;> rfl

/-- Witness for the amended Claim C8 at a concrete state and roll. -/
theorem c8_amended_witness :
    (decideAction c8State ⟨true, 0⟩ 0 (fun _ => 1 / 2) 0).mode = ActionMode.react :=
  c8_amended c8State ⟨true, 0⟩ 0 (fun _ => 1 / 2) 0 rfl rfl (by norm_num)

/-! ### Claim C5: `split_text_for_streaming` chunk bounds

`src/audio/lip_sync.py` lines 12-52. `re.split(r'([。！？!?\n])', text)` is
modelled as a list of (piece, optional delimiter) pairs; the loop accumulates
a current chunk, splitting further on minor punctuation `、…` when a combined
piece would overflow `max_length`. -/

/-- `re.split` with a captured single-character class: the pieces, each paired
with the delimiter that followed it (`none` for the final piece). -/
def splitKeep (delims : List Char) : List Char → List (List Char × Option Char)
  | [] => [([], none)]
  | c :: cs =>
    if delims.contains c then ([], some c) :: splitKeep delims cs
    else
      match splitKeep delims cs with
      | (p, d) :: rest => (c :: p, d) :: rest
      | [] => [([c], none)]

def minorDelims : List Char := ['、', '…']

/-- The inner loop over the minor-punctuation sub-pieces (source lines
31-41): a chunk is flushed as soon as the accumulated length reaches
`min_length`; returns the produced chunks and the final `current_chunk`. -/
def subLoop (minL : Nat) : List (List Char × Option Char) → List Char →
    List (List Char) × List Char
  | [], current => ([], current)
  | (seg, d) :: rest, current =>
    let subCombined := seg ++ (match d with | some c => [c] | none => [])
    if minL ≤ current.length + subCombined.length then
      let r := subLoop minL rest []
      (pyStrip (current ++ subCombined) :: r.1, r.2)
    else subLoop minL rest (current ++ subCombined)

/-- The outer loop over the major-punctuation pairs (source lines 21-47),
plus the final flush of a non-empty `current_chunk` (lines 49-50). -/
def splitLoop (minL maxL : Nat) : List (List Char × Option Char) → List Char →
    List (List Char)
  | [], current => if pyStrip current ≠ [] then [pyStrip current] else []
  | (seg, d) :: rest, current =>
    let combined := seg ++ (match d with | some c => [c] | none => [])
    if pyStrip combined = [] then splitLoop minL maxL rest current
    else if maxL < current.length + combined.length then
      let r := subLoop minL (splitKeep minorDelims combined) current
      r.1 ++ splitLoop minL maxL rest r.2
    else
      if combined.any (fun c => majorDelims.contains c) ∨ maxL ≤ current.length + combined.length
      then
        if 1 ≤ (pyStrip (current ++ combined)).length then
          pyStrip (current ++ combined) :: splitLoop minL maxL rest []
        else splitLoop minL maxL rest (current ++ combined)
      else splitLoop minL maxL rest (current ++ combined)

/-- `split_text_for_streaming(text, min_length, max_length)`. -/
def splitText (text : List Char) (minL maxL : Nat) : List (List Char) :=
  splitLoop minL maxL (splitKeep majorDelims text) []

def c5Text : List Char := ('あ' :: '。' :: List.replicate 50 'い') ++ ['。']

/-- Claim C5: the spec asserts every chunk except a final trailing remainder
has length within `[minLength, maxLength]`. False with the default parameters
`(10, 40)`: on this input the first, non-final chunk is the two-character
`"あ。"` (a short sentence closed by major punctuation), below the minimum
(and the second chunk, 51 characters, exceeds the maximum). -/
theorem c5_counterexample :
    splitText c5Text 10 40 = [['あ', '。'], List.replicate 50 'い' ++ ['。']] ∧
      ¬ (∀ i, i + 1 < (splitText c5Text 10 40).length →
          10 ≤ ((splitText c5Text 10 40).getD i []).length ∧
          ((splitText c5Text 10 40).getD i []).length ≤ 40) := by
  constructor
  · decide
  · intro hall
    exact absurd (hall 0 (by decide)) (by decide)

def isMajorCore (c : Char) : Bool := (['。', '！', '？', '!', '?']).contains c

/-- A well-formed sentence for the amended claim: a body free of major
punctuation and newlines, not starting with whitespace, closed by one major
punctuation character, with total length within `[minL, maxL]`. -/
def sentPairOk (minL maxL : Nat) (p : List Char × Char) : Prop :=
  isMajorCore p.2 = true ∧ (∀ c ∈ p.1, majorDelims.contains c = false) ∧
    (∀ c ∈ p.1.take 1, isPyWs c = false) ∧
    minL ≤ p.1.length + 1 ∧ p.1.length + 1 ≤ maxL

def sentFlat (ps : List (List Char × Char)) : List Char :=
  (ps.map (fun p => p.1 ++ [p.2])).flatten

theorem isMajorCore_cases {c : Char} (h : isMajorCore c = true) :
    c = '。' ∨ c = '！' ∨ c = '？' ∨ c = '!' ∨ c = '?' := by
  have h' : c ∈ (['。', '！', '？', '!', '?'] : List Char) := List.elem_iff.mp h
  simpa using h'

theorem isMajorCore_mem {c : Char} (h : isMajorCore c = true) :
    majorDelims.contains c = true := by
  apply List.elem_eq_true_of_mem
  rcases isMajorCore_cases h with rfl | rfl | rfl | rfl | rfl <;> simp [majorDelims]

theorem isMajorCore_not_ws {c : Char} (h : isMajorCore c = true) : isPyWs c = false := by
  rcases isMajorCore_cases h with rfl | rfl | rfl | rfl | rfl <;> rfl

theorem pyStrip_eq_self {l : List Char} (h1 : ∀ c ∈ l.take 1, isPyWs c = false)
    (h2 : ∀ c ∈ l.reverse.take 1, isPyWs c = false) : pyStrip l = l := by
  unfold pyStrip
  have e1 : l.dropWhile isPyWs = l := by
    cases l with
    | nil => rfl
    | cons c cs => simp [List.dropWhile_cons, h1 c (by simp)]
  rw [e1]
  have e2 : l.reverse.dropWhile isPyWs = l.reverse := by
    cases hr : l.reverse with
    | nil => rfl
    | cons c cs =>
      have hc : isPyWs c = false := h2 c (by rw [hr]; simp)
      simp [List.dropWhile_cons, hc]
  rw [e2, List.reverse_reverse]

theorem splitKeep_body (delims : List Char) (body : List Char)
    (hb : ∀ c ∈ body, delims.contains c = false) (d : Char)
    (hd : delims.contains d = true) (rest : List Char) :
    splitKeep delims (body ++ d :: rest) = (body, some d) :: splitKeep delims rest := by
  induction body with
  | nil =>
    rw [List.nil_append]
    show (if delims.contains d = true then ([], some d) :: splitKeep delims rest
      else _) = _
    rw [if_pos hd]
  | cons c cs ih =>
    have hc : delims.contains c = false := hb c (by simp)
    rw [List.cons_append]
    simp only [splitKeep, hc, Bool.false_eq_true, if_false]
    rw [ih (fun x hx => hb x (by simp [hx]))]

theorem sentPair_strip (p : List Char × Char) (hmaj : isMajorCore p.2 = true)
    (hhead : ∀ c ∈ p.1.take 1, isPyWs c = false) :
    pyStrip (p.1 ++ [p.2]) = p.1 ++ [p.2] := by
  apply pyStrip_eq_self
  · intro c hc
    cases hp : p.1 with
    | nil =>
      rw [hp] at hc
      simp at hc
      rw [hc]
      exact isMajorCore_not_ws hmaj
    | cons a as =>
      rw [hp] at hc
      simp at hc
      rw [hc]
      have := hhead a (by rw [hp]; simp)
      exact this
  · intro c hc
    rw [List.reverse_append] at hc
    simp at hc
    rw [hc]
    exact isMajorCore_not_ws hmaj

theorem splitLoop_sents (minL maxL : Nat) :
    ∀ ps : List (List Char × Char), (∀ p ∈ ps, sentPairOk minL maxL p) →
      splitLoop minL maxL (ps.map (fun p => (p.1, some p.2)) ++ [([], none)]) [] =
        ps.map (fun p => p.1 ++ [p.2]) := by
  intro ps
  induction ps with
  | nil =>
    intro _
    simp [splitLoop, pyStrip]
  | cons p ps ih =>
    intro hok
    obtain ⟨hmaj, hbody, hhead, hmin, hmax⟩ := hok p (by simp)
    have hstrip : pyStrip (p.1 ++ [p.2]) = p.1 ++ [p.2] := sentPair_strip p hmaj hhead
    have hlen : (p.1 ++ [p.2]).length = p.1.length + 1 := by simp
    simp only [List.map_cons, List.cons_append, splitLoop]
    rw [hstrip]
    have hne : (p.1 ++ [p.2] : List Char) ≠ [] := by simp
    rw [if_neg (by simp [hne])]
    have hnotover : ¬ (maxL < (([] : List Char)).length + (p.1 ++ [p.2]).length) := by
      simp [hlen]
      omega
    rw [if_neg hnotover]
    have hany : ((p.1 ++ [p.2]).any fun c => majorDelims.contains c) = true := by
      rw [List.any_eq_true]
      exact ⟨p.2, by simp, isMajorCore_mem hmaj⟩
    rw [if_pos (Or.inl hany)]
    rw [if_pos (by simp [hstrip, hlen])]
    simp only [List.nil_append, hstrip, List.append_eq]
    rw [ih (fun q hq => hok q (by simp [hq]))]

/-- Claim C5, amended: the `[minLength, maxLength]` bound is not guaranteed
for arbitrary text (see the counterexample); it does hold on sentence-shaped
input: when the text is a concatenation of sentences, each a newline-free
body without major punctuation, not starting with whitespace, closed by one
of `。！？!?`, and each of total length within `[minL, maxL]`, the segmenter
returns exactly those sentences, and every chunk (the last included) has
length within `[minL, maxL]`. -/
theorem c5_amended (minL maxL : Nat) (ps : List (Prod (List Char) Char))
    (hok : ∀ p ∈ ps, sentPairOk minL maxL p) :
    splitText (sentFlat ps) minL maxL = ps.map (fun p => p.1 ++ [p.2]) ∧
      ∀ chunk ∈ splitText (sentFlat ps) minL maxL,
        minL ≤ chunk.length ∧ chunk.length ≤ maxL := by
  have hkeep : splitKeep majorDelims (sentFlat ps) =
      ps.map (fun p => (p.1, some p.2)) ++ [([], none)] := by
    induction ps with
    | nil => rfl
    | cons p ps ih =>
      obtain ⟨hmaj, hbody, _, _, _⟩ := hok p (by simp)
      have : sentFlat (p :: ps) = p.1 ++ p.2 :: sentFlat ps := by
        simp [sentFlat]
      rw [this, splitKeep_body majorDelims p.1 hbody p.2 (isMajorCore_mem hmaj) (sentFlat ps)]
      rw [ih (fun q hq => hok q (by simp [hq]))]
      simp
  have hmain : splitText (sentFlat ps) minL maxL = ps.map (fun p => p.1 ++ [p.2]) := by
    rw [splitText, hkeep, splitLoop_sents minL maxL ps hok]
  refine ⟨hmain, ?_⟩
  intro chunk hc
  rw [hmain] at hc
  rcases List.mem_map.mp hc with ⟨p, hp, rfl⟩
  obtain ⟨_, _, _, hmin, hmax⟩ := hok p hp
  constructor
  · simpa using hmin
  · simpa using hmax

/-- Witness for the amended Claim C5 at concrete sentences and the default
parameters. -/
theorem c5_amended_witness :
    splitText (sentFlat [(("こんにちは元気です").toList, '。'),
        (("今日はとても晴れてるね").toList, '！')]) 10 40 =
      [("こんにちは元気です。").toList, ("今日はとても晴れてるね！").toList] :=
  (c5_amended 10 40 [(("こんにちは元気です").toList, '。'), (("今日はとても晴れてるね").toList, '！')]
    (by
      intro p hp
      simp only [List.mem_cons, List.not_mem_nil, or_false] at hp
      rcases hp with rfl | rfl <;>
        exact ⟨by decide, by decide, by decide, by decide, by decide⟩)).1

/-! ### Claim C10: idempotence of `PersonaEnforcer.quick_fix`

`src/brain/persona_enforcer.py` lines 209-231: eight `re.sub` rewrites
applied in order. Each pattern is a literal followed by a one-character class
(kept by the `\1` back-reference), except the last, which is a plain literal.
`re.sub` scans left to right, replaces non-overlapping matches and never
rescans replacement text within one pass. -/

structure FixRule where
  litHead : Char
  litRest : List Char
  cls : List Char
  rep : List Char
deriving DecidableEq

def FixRule.lit (r : FixRule) : List Char := r.litHead :: r.litRest

/-- The `replacements` table of `quick_fix`, in source order. -/
def fixRules : List FixRule :=
  [⟨'で', ("すね").toList, ['。', '！', '!'], ("だね").toList⟩,
    ⟨'ま', ("すね").toList, ['。', '！', '!'], ("るね").toList⟩,
    ⟨'で', ("すよ").toList, ['。', '！', '!'], ("だよ").toList⟩,
    ⟨'ま', ("すよ").toList, ['。', '！', '!'], ("るよ").toList⟩,
    ⟨'で', ("す").toList, ['。', '！', '!'], ("だよ").toList⟩,
    ⟨'ま', ("す").toList, ['。', '！', '!'], ("るよ").toList⟩,
    ⟨'で', ("しょうか").toList, ['。', '？', '?'], ("かな").toList⟩,
    ⟨'あ', ("りがとうございます").toList, [], ("ありがとね").toList⟩]

/-- Anchored match of one rule's pattern: the literal, then one class
character when the class is non-empty. Returns the emitted replacement text
(with the back-referenced class character) and the rest of the input. -/
def ruleMatch (r : FixRule) (l : List Char) : Option (List Char × List Char) :=
  if r.lit.isPrefixOf l then
    if r.cls.isEmpty then some (r.rep, l.drop r.lit.length)
    else
      match l.drop r.lit.length with
      | c :: rest' => if r.cls.contains c then some (r.rep ++ [c], rest') else none
      | [] => none
  else none

theorem ruleMatch_rest {r : FixRule} {l rep rest : List Char}
    (h : ruleMatch r l = some (rep, rest)) : rest.length < l.length := by
  unfold ruleMatch at h
  split_ifs at h with hp hc
  · simp only [Option.some.injEq, Prod.mk.injEq] at h
    obtain ⟨_, h2⟩ := h
    have hlen : r.lit.length ≤ l.length :=
      (List.isPrefixOf_iff_prefix.mp hp).length_le
    have : r.lit.length = r.litRest.length + 1 := by simp [FixRule.lit]
    subst h2
    simp only [List.length_drop]
    omega
  · rcases hdrop : l.drop r.lit.length with _ | ⟨c, rest'⟩ <;> rw [hdrop] at h
    · simp at h
    · have h' : (if r.cls.contains c = true then some (r.rep ++ [c], rest') else none) =
          some (rep, rest) := h
      split_ifs at h' with hcc
      · simp only [Option.some.injEq, Prod.mk.injEq] at h'
        obtain ⟨_, h2⟩ := h'
        have hlen : r.lit.length ≤ l.length :=
          (List.isPrefixOf_iff_prefix.mp hp).length_le
        have h3 : (l.drop r.lit.length).length = rest'.length + 1 := by rw [hdrop]; simp
        simp only [List.length_drop] at h3
        subst h2
        omega

/-- The body of one `re.sub` pass: scan left to right, replace each
non-overlapping match, keep other characters. -/
def applyRule (r : FixRule) (l : List Char) : List Char :=
  match l with
  | [] => []
  | c :: cs =>
    match h : ruleMatch r (c :: cs) with
    | some (rep, rest) => rep ++ applyRule r rest
    | none => c :: applyRule r cs
termination_by l.length
decreasing_by
  · exact ruleMatch_rest h
  · simp

def applyRules (rs : List FixRule) (l : List Char) : List Char :=
  rs.foldl (fun acc r => applyRule r acc) l

/-- `PersonaEnforcer.quick_fix`. -/
def quickFix (l : List Char) : List Char := applyRules fixRules l

/-- A partially consumed pattern (`litRem` still to match, then one class
character) matches at the head of `l`. -/
def partMatchesB (litRem cls l : List Char) : Bool :=
  litRem.isPrefixOf l &&
    (cls.isEmpty ||
      (match l.drop litRem.length with
      | c :: _ => cls.contains c
      | [] => false))

/-- The partial pattern conflicts with `y` within `y` itself, so it cannot
match `y ++ t` for any continuation `t`. -/
def partBlockedB (litRem cls y : List Char) : Bool :=
  if y.length ≤ litRem.length then !(y.isPrefixOf litRem)
  else !(litRem.isPrefixOf y) ||
    (!cls.isEmpty && !(cls.contains (y.getD litRem.length ' ')))

/-- The texts a pass of rule `r` can splice into its output. -/
def ruleBlocks (r : FixRule) : List (List Char) :=
  if r.cls.isEmpty then [r.rep] else r.cls.map (fun c => r.rep ++ [c])

/-- Safety of the ordered pair: no pattern of `ri` (full or partially
consumed) can begin inside, or extend out of, a replacement block of `rj`. -/
def PairSafeB (ri rj : FixRule) : Bool :=
  (ruleBlocks rj).all (fun y =>
    !y.isEmpty &&
      (List.range (ri.litRest.length + 1)).all (fun m =>
        (ri.cls.isEmpty && m == ri.litRest.length) ||
          partBlockedB (ri.litRest.drop m) ri.cls y) &&
      (List.range y.length).all (fun k =>
        partBlockedB (ri.litHead :: ri.litRest) ri.cls (y.drop k)))

theorem applyRule_nil (r : FixRule) : applyRule r [] = [] := by
  rw [applyRule]

theorem applyRule_cons_some {r : FixRule} {c : Char} {cs rep rest : List Char}
    (h : ruleMatch r (c :: cs) = some (rep, rest)) :
    applyRule r (c :: cs) = rep ++ applyRule r rest := by
  rw [applyRule]
  split
  · rename_i rep' rest' heq
    rw [h] at heq
    simp only [Option.some.injEq, Prod.mk.injEq] at heq
    rw [heq.1, heq.2]
  · rename_i heq
    rw [h] at heq
    exact absurd heq (by simp)

theorem applyRule_cons_none {r : FixRule} {c : Char} {cs : List Char}
    (h : ruleMatch r (c :: cs) = none) :
    applyRule r (c :: cs) = c :: applyRule r cs := by
  rw [applyRule]
  split
  · rename_i rep' rest' heq
    rw [h] at heq
    exact absurd heq (by simp)
  · rfl

theorem bandE {a b : Bool} (h : (a && b) = true) : a = true ∧ b = true := by
  simp only [Bool.and_eq_true] at h
  exact h

theorem borE {a b : Bool} (h : (a || b) = true) : a = true ∨ b = true := by
  simp only [Bool.or_eq_true] at h
  exact h

theorem partBlockedB_spec {litRem cls y : List Char} (h : partBlockedB litRem cls y = true)
    (t : List Char) : partMatchesB litRem cls (y ++ t) = false := by
  unfold partBlockedB at h
  unfold partMatchesB
  split_ifs at h with hlen
  · have hy : y.isPrefixOf litRem = false := by
      cases hyy : y.isPrefixOf litRem
      · rfl
      · rw [hyy] at h
        simp at h
    have hfirst : litRem.isPrefixOf (y ++ t) = false := by
      cases hx : litRem.isPrefixOf (y ++ t)
      · rfl
      · exfalso
        have hlp : litRem <+: y ++ t := List.isPrefixOf_iff_prefix.mp hx
        have hyp : y <+: y ++ t := List.prefix_append y t
        have hcon : y <+: litRem := List.prefix_of_prefix_length_le hyp hlp hlen
        rw [List.isPrefixOf_iff_prefix.mpr hcon] at hy
        exact Bool.noConfusion hy
    rw [hfirst]
    rfl
  · push_neg at hlen
    rcases borE h with hcase | hcase
    · have hny : litRem.isPrefixOf y = false := by
        cases hyy : litRem.isPrefixOf y
        · rfl
        · rw [hyy] at hcase
          simp at hcase
      have hfirst : litRem.isPrefixOf (y ++ t) = false := by
        cases hx : litRem.isPrefixOf (y ++ t)
        · rfl
        · exfalso
          have hlp : litRem <+: y ++ t := List.isPrefixOf_iff_prefix.mp hx
          have hyp : y <+: y ++ t := List.prefix_append y t
          have hcon : litRem <+: y :=
            List.prefix_of_prefix_length_le hlp hyp (le_of_lt hlen)
          rw [List.isPrefixOf_iff_prefix.mpr hcon] at hny
          exact Bool.noConfusion hny
      rw [hfirst]
      rfl
    · obtain ⟨hc1, hc2⟩ := bandE hcase
      rw [Bool.not_eq_true'] at hc1 hc2
      have e1 : (y ++ t).drop litRem.length =
          y.getD litRem.length ' ' :: (y.drop (litRem.length + 1) ++ t) := by
        rw [List.drop_append_of_le_length (le_of_lt hlen),
          List.drop_eq_getElem_cons hlen, List.getD_eq_getElem y ' ' hlen]
        rfl
      rw [e1, hc1]
      show (litRem.isPrefixOf (y ++ t) &&
        cls.contains (y.getD litRem.length ' ')) = false
      rw [hc2, Bool.and_false]

theorem partMatchesB_cons (d : Char) (w cls : List Char) (c : Char) (l : List Char) :
    partMatchesB (d :: w) cls (c :: l) = ((d == c) && partMatchesB w cls l) := by
  unfold partMatchesB
  rw [List.isPrefixOf_cons₂, List.length_cons, List.drop_succ_cons, Bool.and_assoc]

theorem partMatchesB_nil_cons (cls : List Char) (c : Char) (l : List Char) :
    partMatchesB [] cls (c :: l) = (cls.isEmpty || cls.contains c) := by
  unfold partMatchesB
  simp

theorem ruleMatch_isSome (r : FixRule) (l : List Char) :
    (ruleMatch r l).isSome = partMatchesB r.lit r.cls l := by
  unfold ruleMatch partMatchesB
  split_ifs with hp hc
  · simp [hp, hc]
  · rcases hdrop : l.drop r.lit.length with _ | ⟨c, rest'⟩
    · simp [hp, hc]
    · by_cases hmem : c ∈ r.cls <;> simp [hp, hc, hmem]
  · simp [hp]

theorem ruleMatch_some_block {r : FixRule} {l rep rest : List Char}
    (h : ruleMatch r l = some (rep, rest)) :
    rep ∈ ruleBlocks r ∧ ∃ n, rest = l.drop n := by
  unfold ruleMatch at h
  split_ifs at h with hp hc
  · simp only [Option.some.injEq, Prod.mk.injEq] at h
    obtain ⟨h1, h2⟩ := h
    refine ⟨?_, ⟨r.lit.length, h2.symm⟩⟩
    rw [← h1]
    simp [ruleBlocks, hc]
  · rcases hdrop : l.drop r.lit.length with _ | ⟨c, rest'⟩ <;> rw [hdrop] at h
    · simp at h
    · have h' : (if r.cls.contains c = true then some (r.rep ++ [c], rest') else none) =
          some (rep, rest) := h
      split_ifs at h' with hcc
      simp only [Option.some.injEq, Prod.mk.injEq] at h'
      obtain ⟨h1, h2⟩ := h'
      constructor
      · rw [← h1]
        unfold ruleBlocks
        rw [if_neg hc]
        exact List.mem_map.mpr ⟨c, List.elem_iff.mp hcc, rfl⟩
      · refine ⟨r.lit.length + 1, ?_⟩
        rw [← h2]
        have htail := List.tail_drop l r.lit.length
        rw [hdrop] at htail
        simpa using htail

theorem pairSafe_parts {ri rj : FixRule} (hsafe : PairSafeB ri rj = true) {y : List Char}
    (hy : y ∈ ruleBlocks rj) :
    y.isEmpty = false ∧
      (∀ m, m < ri.litRest.length + 1 →
        (ri.cls.isEmpty && (m == ri.litRest.length)) = true ∨
          partBlockedB (ri.litRest.drop m) ri.cls y = true) ∧
      (∀ k, k < y.length →
        partBlockedB (ri.litHead :: ri.litRest) ri.cls (y.drop k) = true) := by
  unfold PairSafeB at hsafe
  have hthis := (List.all_eq_true.mp hsafe) y hy
  obtain ⟨h12, h3⟩ := bandE hthis
  obtain ⟨h1, h2⟩ := bandE h12
  refine ⟨by simpa using h1, ?_, ?_⟩
  · intro m hm
    have := (List.all_eq_true.mp h2) m (List.mem_range.mpr hm)
    rcases borE this with hl | hr
    · exact Or.inl hl
    · exact Or.inr hr
  · intro k hk
    exact (List.all_eq_true.mp h3) k (List.mem_range.mpr hk)

/-- If a partly consumed pattern of `ri` matches the output of a pass of a
safe rule `rj`, it already matched the corresponding input. -/
theorem spLemma (ri rj : FixRule) (hsafe : PairSafeB ri rj = true) :
    ∀ l m, partMatchesB (ri.litRest.drop m) ri.cls (applyRule rj l) = true →
      partMatchesB (ri.litRest.drop m) ri.cls l = true := by
  intro l
  induction l with
  | nil =>
    intro m hm
    rw [applyRule_nil] at hm
    exact hm
  | cons c cs ih =>
    intro m hm
    rcases hrm : ruleMatch rj (c :: cs) with _ | ⟨rep, rest⟩
    · rw [applyRule_cons_none hrm] at hm
      rcases hlr : ri.litRest.drop m with _ | ⟨d, w⟩
      · rw [hlr] at hm
        rw [partMatchesB_nil_cons] at hm ⊢
        exact hm
      · rw [hlr] at hm
        rw [partMatchesB_cons] at hm ⊢
        obtain ⟨hdc, hrest⟩ := bandE hm
        have hw : w = ri.litRest.drop (m + 1) := by
          have htail := List.tail_drop ri.litRest m
          rw [hlr] at htail
          simpa using htail
        rw [hw] at hrest
        have hcs := ih (m + 1) hrest
        rw [Bool.and_eq_true]
        exact ⟨hdc, by rw [hw]; exact hcs⟩
    · rw [applyRule_cons_some hrm] at hm
      obtain ⟨hblock, -⟩ := ruleMatch_some_block hrm
      obtain ⟨-, hmid, -⟩ := pairSafe_parts hsafe hblock
      by_cases hesc : ri.cls.isEmpty = true ∧ ri.litRest.length ≤ m
      · have hdropnil : ri.litRest.drop m = [] :=
          List.drop_eq_nil_of_le hesc.2
        rw [hdropnil]
        unfold partMatchesB
        simp [hesc.1]
      · have hm' : min m ri.litRest.length < ri.litRest.length + 1 := by omega
        have hsame : ri.litRest.drop (min m ri.litRest.length) = ri.litRest.drop m := by
          rcases Nat.le_total m ri.litRest.length with hle | hge
          · rw [Nat.min_eq_left hle]
          · rw [Nat.min_eq_right hge, List.drop_eq_nil_of_le hge,
              List.drop_eq_nil_of_le (le_refl _)]
        rcases hmid (min m ri.litRest.length) hm' with hl | hr
        · exfalso
          obtain ⟨he1, he2⟩ := bandE hl
          rcases Nat.lt_or_ge m ri.litRest.length with hlt | hge
          · have : min m ri.litRest.length = m := Nat.min_eq_left (le_of_lt hlt)
            rw [this] at he2
            have hme : m = ri.litRest.length := by simpa using he2
            omega
          · exact hesc ⟨he1, hge⟩
        · rw [hsame] at hr
          exfalso
          have := partBlockedB_spec hr (applyRule rj rest)
          rw [this] at hm
          exact Bool.noConfusion hm

def noMatchAll (r : FixRule) (l : List Char) : Prop :=
  ∀ n, partMatchesB r.lit r.cls (l.drop n) = false

/-- A pass of a safe rule `rj` cannot create a match of `ri`. -/
theorem presRule (ri rj : FixRule) (hsafe : PairSafeB ri rj = true) :
    ∀ N l, l.length ≤ N → noMatchAll ri l → noMatchAll ri (applyRule rj l) := by
  intro N
  induction N with
  | zero =>
    intro l hN h n
    have hnil : l = [] := List.length_eq_zero.mp (Nat.le_zero.mp hN)
    subst hnil
    rw [applyRule_nil]
    exact h n
  | succ N ihN =>
    intro l hN h n
    match l with
    | [] =>
      rw [applyRule_nil]
      exact h n
    | c :: cs =>
      rcases hrm : ruleMatch rj (c :: cs) with _ | ⟨rep, rest⟩
      · rw [applyRule_cons_none hrm]
        match n with
        | 0 =>
          rw [List.drop_zero]
          cases hfull : partMatchesB ri.lit ri.cls (c :: applyRule rj cs)
          · rfl
          · exfalso
            rw [show ri.lit = ri.litHead :: ri.litRest from rfl, partMatchesB_cons] at hfull
            obtain ⟨hdc, hrest⟩ := bandE hfull
            have h0 := spLemma ri rj hsafe cs 0 (by simpa using hrest)
            have hc0 := h 0
            rw [List.drop_zero, show ri.lit = ri.litHead :: ri.litRest from rfl,
              partMatchesB_cons] at hc0
            rw [Bool.and_eq_false_iff] at hc0
            rcases hc0 with hc0 | hc0
            · rw [hdc] at hc0
              exact Bool.noConfusion hc0
            · rw [List.drop_zero] at h0
              rw [h0] at hc0
              exact Bool.noConfusion hc0
        | n + 1 =>
          rw [List.drop_succ_cons]
          have hlen : cs.length ≤ N := by
            have := hN
            simp only [List.length_cons] at this
            omega
          exact ihN cs hlen
            (fun k => by have := h (k + 1); rwa [List.drop_succ_cons] at this) n
      · rw [applyRule_cons_some hrm]
        obtain ⟨hblock, ⟨k, hk⟩⟩ := ruleMatch_some_block hrm
        have hrest : noMatchAll ri rest := by
          intro j
          rw [hk, List.drop_drop]
          exact h (k + j)
        have hlenrest : rest.length ≤ N := by
          have hlt := ruleMatch_rest hrm
          simp only [List.length_cons] at hlt hN
          omega
        by_cases hn : n < rep.length
        · rw [List.drop_append_of_le_length (le_of_lt hn)]
          obtain ⟨-, -, hblk⟩ := pairSafe_parts hsafe hblock
          exact partBlockedB_spec (hblk n hn) (applyRule rj rest)
        · obtain ⟨j, rfl⟩ : ∃ j, n = rep.length + j :=
            ⟨n - rep.length, by omega⟩
          rw [List.drop_append]
          exact ihN rest hlenrest hrest j

/-- After a pass of a self-safe rule, the rule matches nowhere. -/
theorem selfRule (r : FixRule) (hsafe : PairSafeB r r = true) :
    ∀ N l, l.length ≤ N → noMatchAll r (applyRule r l) := by
  intro N
  induction N with
  | zero =>
    intro l hN n
    have hnil : l = [] := List.length_eq_zero.mp (Nat.le_zero.mp hN)
    subst hnil
    rw [applyRule_nil]
    unfold partMatchesB
    simp [FixRule.lit]
  | succ N ihN =>
    intro l hN n
    match l with
    | [] =>
      rw [applyRule_nil]
      unfold partMatchesB
      simp [FixRule.lit]
    | c :: cs =>
      rcases hrm : ruleMatch r (c :: cs) with _ | ⟨rep, rest⟩
      · rw [applyRule_cons_none hrm]
        match n with
        | 0 =>
          rw [List.drop_zero]
          cases hfull : partMatchesB r.lit r.cls (c :: applyRule r cs)
          · rfl
          · exfalso
            rw [show r.lit = r.litHead :: r.litRest from rfl, partMatchesB_cons] at hfull
            obtain ⟨hdc, hrest⟩ := bandE hfull
            have h0 := spLemma r r hsafe cs 0 (by simpa using hrest)
            have hsome : (ruleMatch r (c :: cs)).isSome = true := by
              rw [ruleMatch_isSome, show r.lit = r.litHead :: r.litRest from rfl,
                partMatchesB_cons, Bool.and_eq_true]
              exact ⟨hdc, by rw [List.drop_zero] at h0; exact h0⟩
            rw [hrm] at hsome
            exact Bool.noConfusion hsome
        | n + 1 =>
          rw [List.drop_succ_cons]
          have hlen : cs.length ≤ N := by
            simp only [List.length_cons] at hN
            omega
          exact ihN cs hlen n
      · rw [applyRule_cons_some hrm]
        obtain ⟨hblock, ⟨k, hk⟩⟩ := ruleMatch_some_block hrm
        have hlenrest : rest.length ≤ N := by
          have hlt := ruleMatch_rest hrm
          simp only [List.length_cons] at hlt hN
          omega
        by_cases hn : n < rep.length
        · rw [List.drop_append_of_le_length (le_of_lt hn)]
          obtain ⟨-, -, hblk⟩ := pairSafe_parts hsafe hblock
          exact partBlockedB_spec (hblk n hn) (applyRule r rest)
        · obtain ⟨j, rfl⟩ : ∃ j, n = rep.length + j :=
            ⟨n - rep.length, by omega⟩
          rw [List.drop_append]
          exact ihN rest hlenrest j

/-- A pass of a rule that matches nowhere is the identity. -/
theorem identRule (r : FixRule) : ∀ l, noMatchAll r l → applyRule r l = l := by
  intro l
  induction l with
  | nil => intro _; exact applyRule_nil r
  | cons c cs ih =>
    intro h
    rcases hrm : ruleMatch r (c :: cs) with _ | ⟨rep, rest⟩
    · rw [applyRule_cons_none hrm]
      rw [ih (fun j => by have := h (j + 1); rwa [List.drop_succ_cons] at this)]
    · exfalso
      have h0 := h 0
      rw [List.drop_zero] at h0
      have hsome : (ruleMatch r (c :: cs)).isSome = false := by
        rw [ruleMatch_isSome]
        exact h0
      rw [hrm] at hsome
      exact Bool.noConfusion hsome

theorem foldPres (ri : FixRule) :
    ∀ rs : List FixRule, (∀ rj ∈ rs, PairSafeB ri rj = true) →
      ∀ l, noMatchAll ri l → noMatchAll ri (applyRules rs l) := by
  intro rs
  induction rs with
  | nil => intro _ l h; exact h
  | cons rj rs ih =>
    intro hp l h
    show noMatchAll ri (applyRules rs (applyRule rj l))
    exact ih (fun x hx => hp x (by simp [hx])) (applyRule rj l)
      (presRule ri rj (hp rj (by simp)) l.length l (le_refl _) h)

theorem chainNoMatch :
    ∀ rs : List FixRule, (∀ r ∈ rs, PairSafeB r r = true) →
      rs.Pairwise (fun a b => PairSafeB a b = true) →
      ∀ l, ∀ r ∈ rs, noMatchAll r (applyRules rs l) := by
  intro rs
  induction rs with
  | nil => intro _ _ l r hr; exact absurd hr (by simp)
  | cons r0 rs ih =>
    intro hself hpair l r hr
    rw [List.pairwise_cons] at hpair
    show noMatchAll r (applyRules rs (applyRule r0 l))
    rcases List.mem_cons.mp hr with rfl | hr'
    · exact foldPres r rs hpair.1 (applyRule r l)
        (selfRule r (hself r (by simp)) l.length l (le_refl _))
    · exact ih (fun x hx => hself x (by simp [hx])) hpair.2 (applyRule r0 l) r hr'

theorem foldIdent :
    ∀ rs : List FixRule, ∀ l, (∀ r ∈ rs, noMatchAll r l) → applyRules rs l = l := by
  intro rs
  induction rs with
  | nil => intro l _; rfl
  | cons r0 rs ih =>
    intro l h
    show applyRules rs (applyRule r0 l) = l
    rw [identRule r0 l (h r0 (by simp))]
    exact ih l (fun x hx => h x (by simp [hx]))

theorem fixRules_selfSafe : ∀ r ∈ fixRules, PairSafeB r r = true := by decide

theorem fixRules_pairSafe : fixRules.Pairwise (fun a b => PairSafeB a b = true) := by decide

/-- Claim C10: `quick_fix` is idempotent. After one pass of the eight
rewrites no occurrence of any of their patterns remains (each pass removes
its own matches, and no later rewrite can recreate an earlier pattern, since
no pattern, full or partially consumed, can begin inside or extend out of a
replacement text), so a second application changes nothing. -/
theorem c10_quickfix_idempotent (t : List Char) : quickFix (quickFix t) = quickFix t := by
  unfold quickFix
  exact foldIdent fixRules (applyRules fixRules t)
    (fun r hr => chainNoMatch fixRules fixRules_selfSafe fixRules_pairSafe t r hr)

end Kira
